import Mathlib

/-!
Verification of the outline-construction core of `app.py` (PDF → mindmap tool).

The development shallowly embeds the pure core of the program:
`is_heading` (heading classification with its ordered regex patterns),
`build_tree_from_lines` (stack-based tree construction),
`trim_depth` (depth-bounded copy), and `to_dot` (Graphviz DOT serialization).
Strings are modelled as `List Char`; Python's `re` patterns are translated
into executable matching functions whose greedy/backtracking behaviour
mirrors the Python regex engine on the inputs the program feeds them
(strings already stripped of surrounding whitespace, as `is_heading` does
with `line.strip()` before matching).
-/

/-- Strings of the embedded program: Python `str` values as lists of characters. -/
abbrev Str := List Char

/-- Python's `\s` character class (also the class used by `str.strip()`):
whitespace code points as matched by CPython's `re` on `str` patterns. -/
def isPySpace (c : Char) : Bool :=
  let n := c.toNat
  (n == 9) || (n == 10) || (n == 11) || (n == 12) || (n == 13) ||
  (n == 28) || (n == 29) || (n == 30) || (n == 31) || (n == 32) ||
  (n == 133) || (n == 160) || (n == 5760) ||
  (decide (8192 ≤ n) && decide (n ≤ 8202)) ||
  (n == 8232) || (n == 8233) || (n == 8239) || (n == 8287) || (n == 12288)

/-- Python's `\d` character class, restricted to the decimal-digit ranges that
can occur in this program's domain (ASCII digits and fullwidth digits). -/
def isPyDigit (c : Char) : Bool :=
  let n := c.toNat
  (decide (48 ≤ n) && decide (n ≤ 57)) ||
  (decide (65296 ≤ n) && decide (n ≤ 65305))

/-- The character class `[A-Za-z0-9一-龥ぁ-んァ-ン]` of the fallback heading rule. -/
def isScriptChar (c : Char) : Bool :=
  let n := c.toNat
  (decide (65 ≤ n) && decide (n ≤ 90)) ||
  (decide (97 ≤ n) && decide (n ≤ 122)) ||
  (decide (48 ≤ n) && decide (n ≤ 57)) ||
  (decide (19968 ≤ n) && decide (n ≤ 40805)) ||
  (decide (12353 ≤ n) && decide (n ≤ 12435)) ||
  (decide (12449 ≤ n) && decide (n ≤ 12531))

/-- Python `str.strip()`: remove leading and trailing whitespace. -/
def pyStrip (s : Str) : Str :=
  ((s.dropWhile isPySpace).reverse.dropWhile isPySpace).reverse

/-- Tail matcher for `\s*(.+)?$` on a string with no trailing newline
(the matchers are only ever applied to stripped strings).
The regex engine takes the maximal whitespace run `\s*`, then tries `(.+)`
greedily (`.` does not match a newline), then the empty alternative of `(.+)?`.
Returns `some group` on a match (`group = none` when `(.+)?` matched empty),
`none` when the whole pattern fails. -/
def tailGroup (r : Str) : Option (Option Str) :=
  let p := (r.takeWhile isPySpace).length
  let rest := r.drop p
  if rest = [] then some none
  else if rest.contains '\n' then none
  else some (some rest)

/-- Tail matcher for `\s*(.+)$` (group required) on a string with no trailing
newline. When everything after `\s*` is empty, the engine backtracks `\s*` by
one character and matches `(.+)` against that final whitespace character
(unless it is a newline, which `.` cannot match). -/
def tailReq (r : Str) : Option Str :=
  let p := (r.takeWhile isPySpace).length
  let rest := r.drop p
  if rest = [] then
    match r.getLast? with
    | some c => if c = '\n' then none else some [c]
    | none => none
  else if rest.contains '\n' then none else some rest

/-- Matcher for pattern 1, `^(?:第\s*\d+\s*章)\s*(.+)?$` (the chapter marker).
Returns `some group1` on a match. -/
def matchP1 (s : Str) : Option (Option Str) :=
  match s with
  | [] => none
  | c :: rest =>
    if c = '第' then
      let r1 := rest.dropWhile isPySpace
      let ds := r1.takeWhile isPyDigit
      if ds = [] then none
      else
        let r2 := (r1.drop ds.length).dropWhile isPySpace
        match r2 with
        | c2 :: r3 => if c2 = '章' then tailGroup r3 else none
        | [] => none
    else none

/-- Core of pattern 2 after the `Appendix`/`付録` literal:
`\s*[:：]?\s*(.+)?$`. The optional colon is taken greedily when present. -/
def matchP2core (r : Str) : Option (Option Str) :=
  let r1 := r.dropWhile isPySpace
  let r2 := match r1 with
    | c :: t => if c = ':' ∨ c = '：' then t else r1
    | [] => r1
  tailGroup r2

/-- Matcher for pattern 2, `^(?:Appendix|付録)\s*[:：]?\s*(.+)?$`. -/
def matchP2 (s : Str) : Option (Option Str) :=
  if ("Appendix".data).isPrefixOf s then matchP2core (s.drop 8)
  else if ("付録".data).isPrefixOf s then matchP2core (s.drop 2)
  else none

/-- Separator class `[)\.．]` of pattern 3. -/
def sepOk (c : Char) : Bool := c = ')' || c = '.' || c = '．'

/-- Try to finish pattern 3 with a fixed numeral: match `[)\.．]\s*(.+)$`
against the remaining input. Returns `(group1, group2)`. -/
def trySep (numeral : Str) (after : Str) : Option (Str × Str) :=
  match after with
  | c :: t =>
    if sepOk c then
      match tailReq t with
      | some g => some (numeral, g)
      | none => none
    else none
  | [] => none

/-- Greedily collect up to `fuel` repetitions of `(?:[.\-]\d+)` (each stored
as its separator character followed by its maximal digit run). -/
def collectReps (r : Str) : Nat → List Str
  | 0 => []
  | fuel + 1 =>
    match r with
    | c :: t =>
      if c = '.' ∨ c = '-' then
        let ds := t.takeWhile isPyDigit
        if ds = [] then []
        else (c :: ds) :: collectReps (t.drop ds.length) fuel
      else []
    | [] => []

/-- Backtracking over the repetition count of `(?:[.\-]\d+){0,3}`:
the engine first tries the full greedy repetition list, then gives back
repetitions from the last one. `srev` holds the not-yet-relinquished
repetitions in reverse order; `rem` is the input after them. -/
def tryDownRev (d : Str) (srev : List Str) (rem : Str) : Option (Str × Str) :=
  match trySep (d ++ srev.reverse.flatten) rem with
  | some res => some res
  | none =>
    match srev with
    | [] => none
    | x :: xs => tryDownRev d xs (x ++ rem)

/-- Matcher for pattern 3, `^(\d+(?:[.\-]\d+){0,3})[)\.．]\s*(.+)$`
(the multi-segment numeral family). Returns `(numeral, remainder)`.
Digit runs never need to be given back (no later pattern element can start
with a digit), so only the repetition count backtracks. -/
def matchP3 (s : Str) : Option (Str × Str) :=
  let d := s.takeWhile isPyDigit
  if d = [] then none
  else
    let r := s.drop d.length
    let reps := collectReps r 3
    let rem := r.drop (reps.foldl (fun a x => a + x.length) 0)
    tryDownRev d reps.reverse rem

/-- Matcher for pattern 4, `^(\d+)\s*[:：-]\s*(.+)$` (bare integer with a
colon or hyphen). Returns `(numeral, remainder)`. -/
def matchP4 (s : Str) : Option (Str × Str) :=
  let d := s.takeWhile isPyDigit
  if d = [] then none
  else
    let r1 := (s.drop d.length).dropWhile isPySpace
    match r1 with
    | c :: t =>
      if c = ':' ∨ c = '：' ∨ c = '-' then
        match tailReq t with
        | some g => some (d, g)
        | none => none
      else none
    | [] => none

/-- `is_heading` from `app.py`: strips the line, tries the four patterns in
order, and otherwise applies the short-colon-terminated-line fallback.
For a 2-group pattern with a nonempty group 1 (patterns 3 and 4) the level is
`group1.count "." + group1.count "-" + 1` and the title is
`f"{group1} {group2.strip()}".strip()`; for a 1-group pattern (patterns 1,
2) the result is `(1, (group1 or s).strip())`. -/
def is_heading (line : Str) : Option (Nat × Str) :=
  let s := pyStrip line
  if s = [] then none
  else
    match matchP1 s with
    | some g =>
      let rest := match g with | some r => r | none => []
      some (1, pyStrip (if rest = [] then s else rest))
    | none =>
    match matchP2 s with
    | some g =>
      let rest := match g with | some r => r | none => []
      some (1, pyStrip (if rest = [] then s else rest))
    | none =>
    match matchP3 s with
    | some (num, rest) =>
      some (num.count '.' + num.count '-' + 1, pyStrip (num ++ ' ' :: pyStrip rest))
    | none =>
    match matchP4 s with
    | some (num, rest) =>
      some (num.count '.' + num.count '-' + 1, pyStrip (num ++ ' ' :: pyStrip rest))
    | none =>
      if s.length ≤ 30 ∧ s.any isScriptChar ∧
          (s.getLast? = some ':' ∨ s.getLast? = some '：') then
        some (1, pyStrip s.dropLast)
      else none

/-- The `Node` dataclass of `app.py`: a title and an ordered list of children. -/
inductive Node where
  | mk (title : Str) (children : List Node)

/-- Title accessor of `Node`. -/
def Node.title : Node → Str
  | .mk t _ => t

/-- Children accessor of `Node`. -/
def Node.children : Node → List Node
  | .mk _ cs => cs

/-- A frame of the level-reconciliation stack of `build_tree_from_lines`:
the Python code keeps `(level, node)` pairs and mutates `node.children` in
place; the pure embedding keeps the node's title and its children collected
so far (in reverse), materializing the node when the frame is closed. -/
structure Frame where
  mk :: (level : Nat) (title : Str) (childrenRev : List Node)

/-- Close a finished frame `f` by attaching its materialized node as the most
recent child of the frame `g` below it. In the Python code the attachment
happened at node creation time; closing frames in LIFO order reproduces the
same child order. -/
def closeFrame (f g : Frame) : Frame :=
  Frame.mk g.level g.title (Node.mk f.title f.childrenRev.reverse :: g.childrenRev)

/-- The loop condition `stack[-1][0] >= level` of the builder's pop loop. -/
def popPred (level : Nat) (f : Frame) : Bool :=
  decide (level ≤ f.level)

/-- The pop loop `while stack and stack[-1][0] >= level: stack.pop()`.
The popped prefix of the stack (all frames with level ≥ the incoming level)
is closed, one frame into the next, into the first surviving frame; closing a
frame does not change the level of the frame below, so the popped prefix is
exactly the `takeWhile` prefix. Popping every frame (only possible if the
bottom frame's level were ≥ the incoming level) leaves the empty stack, on
which the subsequent `stack[-1]` access fails. -/
def popTo (level : Nat) (st : List Frame) : List Frame :=
  match st.dropWhile (popPred level) with
  | [] => []
  | g :: rs =>
    match st.takeWhile (popPred level) with
    | [] => g :: rs
    | f :: fs => (fs ++ [g]).foldl (fun acc nxt => closeFrame acc nxt) f :: rs

/-- One iteration of the `for raw in lines` loop of `build_tree_from_lines`.
Python's `last_added` pointer always refers to the node of the top stack
frame (it is set exactly when a frame is pushed, and pops happen only
immediately before a push), so body lines extend the top frame.
A failed `stack[-1]` access (IndexError) is modelled as `none`. -/
def stepLine (st : List Frame) (raw : Str) : Option (List Frame) :=
  let line := pyStrip raw
  if line = [] then some st
  else
    match is_heading line with
    | some (l, title) =>
      let level := max 1 l
      match popTo level st with
      | [] => none
      | f :: rest => some (Frame.mk level title [] :: f :: rest)
    | none =>
      match st with
      | [] => none
      | f :: rest =>
        some (Frame.mk f.level f.title (Node.mk line [] :: f.childrenRev) :: rest)

/-- Run the builder loop over all lines. -/
def runLines : List Frame → List Str → Option (List Frame)
  | st, [] => some st
  | st, l :: ls =>
    match stepLine st l with
    | none => none
    | some st2 => runLines st2 ls

/-- Materialize the node of a frame (collected children are stored in
reverse). -/
def frameNode (f : Frame) : Node :=
  Node.mk f.title f.childrenRev.reverse

/-- Close all remaining frames, one into the next, materializing the root
node. -/
def finalizeStack : List Frame → Option Node
  | [] => none
  | f :: rest => some (frameNode (rest.foldl (fun acc nxt => closeFrame acc nxt) f))

/-- `build_tree_from_lines` from `app.py`: seed the stack with `(0, ROOT)`,
process every line, and return the root. -/
def build_tree_from_lines (lines : List Str) : Option Node :=
  match runLines [Frame.mk 0 "ROOT".data []] lines with
  | none => none
  | some st => finalizeStack st

mutual

/-- `trim_depth` from `app.py` (node part): returns `None` when the current
depth is at or past the cutoff, otherwise a fresh node whose children are the
trimmed children (kept only while `current + 1 < depth`). Depth counters are
Python ints, modelled as `Int`. -/
def trim_depth : Node → Int → Int → Option Node
  | .mk t cs, depth, current =>
    if depth ≤ current then none
    else
      some (.mk t (if current + 1 < depth then trimList cs depth (current + 1) else []))

/-- `trim_depth` from `app.py` (loop over children): keep the non-`None`
trimmed children in order. -/
def trimList : List Node → Int → Int → List Node
  | [], _, _ => []
  | c :: cs, depth, current =>
    match trim_depth c depth current with
    | none => trimList cs depth current
    | some c2 => c2 :: trimList cs depth current
end

mutual

/-- Height of a tree: the maximum number of edges from the root to any node
(0 for a leaf). A node is at most `h` edges from the root of a tree exactly
when the tree's height is at most `h`. -/
def height : Node → Nat
  | .mk _ cs => heightList cs

/-- Height helper over a child list: `0` for no children, otherwise one more
than the largest child height. -/
def heightList : List Node → Nat
  | [] => 0
  | c :: cs => max (height c + 1) (heightList cs)

end

/-- `Node` extended with an identity tag, modelling Python object identity:
every `Node(...)` constructor call in the source allocates a fresh object,
modelled by drawing a fresh id from a threaded allocation counter. -/
inductive NodeI where
  | mk (id : Nat) (title : Str) (children : List NodeI)

mutual

/-- All identity tags occurring in a tree. -/
def idsI : NodeI → List Nat
  | .mk i _ cs => i :: idsIList cs

/-- All identity tags occurring in a forest. -/
def idsIList : List NodeI → List Nat
  | [] => []
  | c :: cs => idsI c ++ idsIList cs

end

mutual

/-- `trim_depth` over identity-tagged nodes: the same algorithm as
`trim_depth`, with the `Node(node.title)` allocation drawing a fresh id from
the counter. Returns the result together with the next fresh counter. -/
def trimI : NodeI → Int → Int → Nat → Option NodeI × Nat
  | .mk _ t cs, depth, current, ctr =>
    if depth ≤ current then (none, ctr)
    else
      let r := if current + 1 < depth then trimIList cs depth (current + 1) (ctr + 1)
               else ([], ctr + 1)
      (some (.mk ctr t r.1), r.2)

/-- `trimI` over a child list, threading the allocation counter. -/
def trimIList : List NodeI → Int → Int → Nat → List NodeI × Nat
  | [], _, _, ctr => ([], ctr)
  | c :: cs, depth, current, ctr =>
    let rc := trimI c depth current ctr
    let rs := trimIList cs depth current rc.2
    (match rc.1 with
     | none => rs.1
     | some m => m :: rs.1, rs.2)

end

/-- Python `str.replace(c, r)` for a single-character pattern `c`:
every occurrence of `c` is replaced by `r`. -/
def replaceChar (c : Char) (r : Str) : Str → Str
  | [] => []
  | x :: t => (if x = c then r else [x]) ++ replaceChar c r t

/-- The `esc` helper of `to_dot`:
`s.replace("\\", "\\\\").replace('"', '\\"').replace("\n", " ")`. -/
def esc (s : Str) : Str :=
  replaceChar '\n' [' '] (replaceChar '"' ['\\', '"'] (replaceChar '\\' ['\\', '\\'] s))

/-- The word of the spec on label escaping, per character: backslash becomes a
doubled backslash, a double quote becomes an escaped double quote, a newline
becomes a single space, and every other character is kept. -/
def escCharSpec (c : Char) : Str :=
  if c = '\\' then ['\\', '\\']
  else if c = '"' then ['\\', '"']
  else if c = '\n' then [' ']
  else [c]

/-- The spec's escaping rule applied to a whole label. -/
def escSpec : Str → Str
  | [] => []
  | c :: t => escCharSpec c ++ escSpec t

/-- The fixed header lines of `to_dot`. -/
def dotHeader : List Str :=
  ["digraph G \x7b".data,
   "  graph [rankdir=TB, bgcolor=\"white\"];".data,
   "  node [shape=box, style=\"rounded,filled\", color=\"#444444\", fillcolor=\"white\", fontname=\"sans-serif\"];".data,
   "  edge [color=\"#888888\"];".data]

mutual

/-- The `add` closure of `to_dot`: assigns the node the next id from the
counter (incremented before use, so ids start at `n1`), emits its label line,
an edge line when it has a parent, then recurses over the children in order.
Returns the emitted lines and the final counter. -/
def addNode : Node → Option Str → Nat → List Str × Nat
  | .mk t cs, parent, counter =>
    let i := counter + 1
    let nid := 'n' :: (Nat.repr i).data
    let selfLine := "  ".data ++ nid ++ " [label=\"".data ++ esc t ++ "\"];".data
    let edges := match parent with
      | some p => ["  ".data ++ p ++ " -> ".data ++ nid ++ ";".data]
      | none => []
    let r := addChildren cs nid i
    (selfLine :: edges ++ r.1, r.2)

/-- `add` over the children of a node, threading the counter. -/
def addChildren : List Node → Str → Nat → List Str × Nat
  | [], _, counter => ([], counter)
  | c :: cs, pid, counter =>
    let r1 := addNode c (some pid) counter
    let r2 := addChildren cs pid r1.2
    (r1.1 ++ r2.1, r2.2)

end

/-- Join lines with newline separators (`"\n".join(lines)`). -/
def joinNl : List Str → Str
  | [] => []
  | [x] => x
  | x :: y :: xs => x ++ '\n' :: joinNl (y :: xs)

/-- The lines emitted by `to_dot`: header, node/edge lines, closing brace. -/
def to_dot_lines (n : Node) : List Str :=
  dotHeader ++ (addNode n none 0).1 ++ ["\x7d".data]

/-- `to_dot` from `app.py`. -/
def to_dot (n : Node) : Str :=
  joinNl (to_dot_lines n)

/-- Collapse runs of whitespace to a single space (helper of the modelled
sanitizer); the boolean records whether the previous character was part of a
whitespace run. -/
def collapseWsAux : Str → Bool → Str
  | [], _ => []
  | c :: t, prev =>
    if isPySpace c then
      if prev then collapseWsAux t true else ' ' :: collapseWsAux t true
    else c :: collapseWsAux t false

/-- Modelled from the spec: per-character safe substitutes of the
diagram-markup sanitizer. The source files at hand do not contain the
diagram-markup (mindmap) serializer, so the substitution table follows the
spec's words: backtick, backslash, braces, brackets, angle brackets, hash,
pipe, double quote and tilde are each replaced by a visual substitute that
the diagram-markup parser cannot misinterpret as syntax (backtick becomes an
apostrophe; pipe becomes a slash). -/
def substChar (c : Char) : Str :=
  if c = Char.ofNat 96 then [Char.ofNat 39]
  else if c = '\\' then ['/']
  else if c = Char.ofNat 123 ∨ c = Char.ofNat 125 then ['(']
  else if c = '[' then ['(']
  else if c = ']' then [')']
  else if c = '<' then ['(']
  else if c = '>' then [')']
  else if c = '#' then ['*']
  else if c = '|' then ['/']
  else if c = '"' then [Char.ofNat 39]
  else if c = '~' then ['-']
  else [c]

/-- Modelled from the spec: apply the substitution table to a whole label. -/
def substAll : Str → Str
  | [] => []
  | c :: t => substChar c ++ substAll t

/-- Modelled from the spec: the label sanitizer of the diagram-markup
(mindmap) serializer, which is absent from the source files at hand. In the
spec's order: strip a single leading bullet/hyphen marker; if the label is
then purely numeric, prefix it with the non-numeric marker `No. `; replace
each unsafe character with its safe substitute; collapse whitespace runs to
one space and trim; and substitute the placeholder ellipsis when the result
is empty. -/
def sanitize_label (s : Str) : Str :=
  let s1 := match s with
    | c :: t => if c = '-' ∨ c = '•' then t else s
    | [] => s
  let s2 := if s1 ≠ [] ∧ s1.all isPyDigit then "No. ".data ++ s1 else s1
  let s3 := substAll s2
  let s4 := pyStrip (collapseWsAux s3 false)
  if s4 = [] then "…".data else s4

mutual

/-- Modelled from the spec: the diagram-markup (mindmap) serializer, absent
from the source files at hand. Indentation encodes depth, the root uses the
distinguished `root((...))` wrapper, and every label passes through
`sanitize_label`. -/
def to_mindmap_lines : Nat → Bool → Node → List Str
  | indent, isRoot, .mk t cs =>
    let label := sanitize_label t
    let line := List.replicate indent ' ' ++
      (if isRoot then "root((".data ++ label ++ "))".data else label)
    line :: to_mindmap_forest (indent + 2) cs

/-- Modelled from the spec: the mindmap serializer over a child list. -/
def to_mindmap_forest : Nat → List Node → List Str
  | _, [] => []
  | indent, c :: cs => to_mindmap_lines indent false c ++ to_mindmap_forest indent cs

end

/-- Modelled from the spec: the full diagram-markup document. -/
def to_mindmap (n : Node) : Str :=
  joinNl ("mindmap".data :: to_mindmap_lines 2 true n)

/-- C9: `build_tree_from_lines` on an empty line sequence succeeds and
returns the synthetic root node, titled `ROOT`, with zero children. -/
theorem build_tree_empty_lines :
    build_tree_from_lines [] = some (Node.mk "ROOT".data []) ∧
    (build_tree_from_lines []).map (fun r => r.children.length) = some 0 :=
  ⟨rfl, rfl⟩

/-- C1, counterexample: on the lines `["1. A", "1.1 B", "2. C"]` the code
does NOT produce `root → [A → [B], C]`. The line `"1.1 B"` has no separator
(`.`, `．` or `)`) after the numeral `1.1`, so the regex backtracks to
numeral `1` with separator `.` and remainder `1 B`, classifying the line at
level 1 with title `1 1 B`. All three headings are level 1, so the root gets
three children and the node built from `"1.1 B"` is not a child of the node
built from `"1. A"`. -/
theorem build_tree_flat_counterexample :
    build_tree_from_lines ["1. A".data, "1.1 B".data, "2. C".data] =
      some (Node.mk "ROOT".data
        [Node.mk "1 A".data [], Node.mk "1 1 B".data [], Node.mk "2 C".data []]) ∧
    (build_tree_from_lines ["1. A".data, "1.1 B".data, "2. C".data]).map
        (fun r => r.children.length) = some 3 :=
  ⟨rfl, rfl⟩

/-- C1, amended: with a separator after the second-level numeral — lines
`["1. A", "1.1. B", "2. C"]` — the tree is `root → [A → [B], C]`: the node
built from `"1.1. B"` (level 2) is the sole child of the node built from
`"1. A"`, and the node built from `"2. C"` is the root's second child. -/
theorem build_tree_numeric_nested :
    build_tree_from_lines ["1. A".data, "1.1. B".data, "2. C".data] =
      some (Node.mk "ROOT".data
        [Node.mk "1 A".data [Node.mk "1.1 B".data []], Node.mk "2 C".data []]) :=
  rfl

/-- C2, counterexample: the chapter-marker pattern of the code is the
Japanese `第\s*\d+\s*章`, so the English line `"Chapter 1 Intro"` matches no
heading pattern at all (`is_heading` returns `None`); every line of
`["Chapter 1 Intro", "a", "b", "Chapter 2 Body", "c"]` is body content and
all five become direct children of the root, not the claimed
`root → [Intro → [a, b], Body → [c]]`. -/
theorem chapter_ascii_counterexample :
    is_heading "Chapter 1 Intro".data = none ∧
    build_tree_from_lines
        ["Chapter 1 Intro".data, "a".data, "b".data, "Chapter 2 Body".data, "c".data] =
      some (Node.mk "ROOT".data
        [Node.mk "Chapter 1 Intro".data [], Node.mk "a".data [], Node.mk "b".data [],
         Node.mk "Chapter 2 Body".data [], Node.mk "c".data []]) ∧
    (build_tree_from_lines
        ["Chapter 1 Intro".data, "a".data, "b".data, "Chapter 2 Body".data, "c".data]).map
        (fun r => r.children.length) = some 5 :=
  ⟨rfl, rfl, rfl⟩

/-- C2, amended: with the chapter marker the code actually recognizes —
lines `["第1章 Intro", "a", "b", "第2章 Body", "c"]` — each chapter line is
classified as a level-1 heading and the following body lines are attached
beneath it: the tree is `root → [Intro → [a, b], Body → [c]]`. -/
theorem chapter_marker_nested :
    build_tree_from_lines
        ["第1章 Intro".data, "a".data, "b".data, "第2章 Body".data, "c".data] =
      some (Node.mk "ROOT".data
        [Node.mk "Intro".data [Node.mk "a".data [], Node.mk "b".data []],
         Node.mk "Body".data [Node.mk "c".data []]]) :=
  rfl

/-- C4: the diagram-markup serializer's label sanitizer (modelled from the
spec) behaves as specified: the purely numeric title `"1"` is emitted with
the non-numeric prefix `No. `; a backtick is replaced by an apostrophe; a
pipe is replaced by its safe substitute (a slash); a title that is empty
after sanitization is emitted as the placeholder ellipsis; and the mindmap
root line wraps the sanitized label in the distinguished root syntax. -/
theorem sanitize_label_behaviour :
    sanitize_label "1".data = "No. 1".data ∧
    sanitize_label "a`b".data = ['a', Char.ofNat 39, 'b'] ∧
    sanitize_label "a|b".data = "a/b".data ∧
    sanitize_label "   ".data = "…".data ∧
    to_mindmap (Node.mk "1".data []) = "mindmap\n  root((No. 1))".data :=
  ⟨rfl, rfl, rfl, rfl, rfl⟩

/-- C7: at the root (`current = 0`), `trim_depth` returns `None` exactly when
the requested depth is `≤ 0`; for every depth `≥ 1` it returns a node,
whatever the shape of the tree. -/
theorem trim_depth_none_iff (t : Node) (D : Int) :
    (trim_depth t D 0 = none ↔ D ≤ 0) ∧ (1 ≤ D → ∃ m, trim_depth t D 0 = some m) := by
  cases t with
  | mk ti cs =>
    by_cases h : D ≤ (0 : Int)
    · exact ⟨by simp [trim_depth, h], fun h1 => absurd h (by omega)⟩
    · refine ⟨by simp [trim_depth, h],
        fun h1 => ⟨Node.mk ti (if (0 : Int) + 1 < D then trimList cs D (0 + 1) else []), ?_⟩⟩
      simp [trim_depth, h]

/-- Witness for C7 at a concrete tree and depth. -/
theorem trim_depth_none_iff_witness :
    ∃ m, trim_depth (Node.mk "x".data [Node.mk "y".data []]) 1 0 = some m :=
  (trim_depth_none_iff (Node.mk "x".data [Node.mk "y".data []]) 1).2 (by decide)

/-- If every tree in a list has height at most `B`, the list's height (as a
child list) is at most `B + 1`. -/
theorem heightList_le (l : List Node) (B : Int) (h0 : 0 ≤ B + 1)
    (h : ∀ x ∈ l, (height x : Int) ≤ B) : (heightList l : Int) ≤ B + 1 := by
  induction l with
  | nil => simpa [heightList] using h0
  | cons c cs ih =>
    rw [heightList]
    have h1 := h c (by simp)
    have h2 := ih (fun x hx => h x (by simp [hx]))
    push_cast
    omega

mutual

/-- A tree surviving `trim_depth` at recursion depth `current` has height at
most `depth - current - 1`. -/
theorem trim_depth_height : ∀ (n : Node) (d cur : Int) (m : Node),
    trim_depth n d cur = some m → (height m : Int) ≤ d - cur - 1
  | .mk t cs, d, cur, m, h => by
    rw [trim_depth] at h
    by_cases hd : d ≤ cur
    · simp [hd] at h
    · simp only [if_neg hd, Option.some.injEq] at h
      subst h
      rw [height]
      by_cases hc : cur + 1 < d
      · rw [if_pos hc]
        have hb := heightList_le (trimList cs d (cur + 1)) (d - cur - 2) (by omega)
          (fun x hx => by
            have := trimList_height cs d (cur + 1) x hx
            omega)
        omega
      · rw [if_neg hc]
        simp only [heightList]
        omega

/-- Every member of a trimmed child list at recursion depth `current` has
height at most `depth - current - 1`. -/
theorem trimList_height : ∀ (cs : List Node) (d cur : Int) (m : Node),
    m ∈ trimList cs d cur → (height m : Int) ≤ d - cur - 1
  | [], d, cur, m, h => by simp [trimList] at h
  | c :: cs, d, cur, m, h => by
    rw [trimList] at h
    cases hc : trim_depth c d cur with
    | none =>
      rw [hc] at h
      exact trimList_height cs d cur m h
    | some c2 =>
      rw [hc] at h
      rcases List.mem_cons.mp h with h1 | h1
      · subst h1
        exact trim_depth_height c d cur m hc
      · exact trimList_height cs d cur m h1

end

/-- C3: for every tree and every requested trim depth `D ≥ 1`, the tree
returned by `trim_depth(root, D)` has height at most `D − 1`: no node of the
result is more than `D − 1` edges from its root. -/
theorem trim_depth_bounded (t : Node) (D : Int) (hD : 1 ≤ D) (m : Node)
    (h : trim_depth t D 0 = some m) : (height m : Int) ≤ D - 1 := by
  have hb := trim_depth_height t D 0 m h
  have h0 : (0 : Int) ≤ D - 1 := by omega
  omega

/-- Witness for C3 at a concrete tree and depth: trimming a chain of length 2
to depth 2 yields a tree of height at most 1. -/
theorem trim_depth_bounded_witness :
    (height (Node.mk "a".data [Node.mk "b".data []]) : Int) ≤ 2 - 1 :=
  trim_depth_bounded (Node.mk "a".data [Node.mk "b".data [Node.mk "c".data []]]) 2
    (by decide) (Node.mk "a".data [Node.mk "b".data []]) (by rfl)

/-- An id occurring in a forest occurs in one of its trees. -/
theorem mem_idsIList {i : Nat} : ∀ l : List NodeI, i ∈ idsIList l → ∃ m ∈ l, i ∈ idsI m := by
  intro l
  induction l with
  | nil => simp [idsIList]
  | cons c cs ih =>
    intro h
    rw [idsIList, List.mem_append] at h
    rcases h with h | h
    · exact ⟨c, by simp, h⟩
    · rcases ih h with ⟨m, hm, hi⟩
      exact ⟨m, by simp [hm], hi⟩

mutual

/-- The allocation counter of `trimI` never decreases, and every id of a
produced node lies in the counter interval consumed by the call. -/
theorem trimI_bound : ∀ (n : NodeI) (d cur : Int) (ctr : Nat),
    ctr ≤ (trimI n d cur ctr).2 ∧
    ∀ m, (trimI n d cur ctr).1 = some m →
      ∀ i ∈ idsI m, ctr ≤ i ∧ i < (trimI n d cur ctr).2
  | .mk j t cs, d, cur, ctr => by
    rw [trimI]
    by_cases hd : d ≤ cur
    · simp [hd]
    · rw [if_neg hd]
      by_cases hc : cur + 1 < d
      · rw [if_pos hc]
        dsimp only
        have hb := trimIList_bound cs d (cur + 1) (ctr + 1)
        refine ⟨by omega, ?_⟩
        intro m hm i hi
        simp only [Option.some.injEq] at hm
        subst hm
        rw [idsI, List.mem_cons] at hi
        rcases hi with hi | hi
        · subst hi
          exact ⟨Nat.le_refl _, by omega⟩
        · rcases mem_idsIList _ hi with ⟨m2, hm2, hi2⟩
          have := hb.2 m2 hm2 i hi2
          omega
      · rw [if_neg hc]
        dsimp only
        refine ⟨by omega, ?_⟩
        intro m hm i hi
        simp only [Option.some.injEq] at hm
        subst hm
        rw [idsI] at hi
        simp only [idsIList, List.mem_cons, List.not_mem_nil, or_false] at hi
        subst hi
        exact ⟨Nat.le_refl _, by omega⟩

/-- The per-list version of `trimI_bound`. -/
theorem trimIList_bound : ∀ (cs : List NodeI) (d cur : Int) (ctr : Nat),
    ctr ≤ (trimIList cs d cur ctr).2 ∧
    ∀ m, m ∈ (trimIList cs d cur ctr).1 →
      ∀ i ∈ idsI m, ctr ≤ i ∧ i < (trimIList cs d cur ctr).2
  | [], d, cur, ctr => by simp [trimIList]
  | c :: cs, d, cur, ctr => by
    rw [trimIList]
    have hc := trimI_bound c d cur ctr
    have hcs := trimIList_bound cs d cur (trimI c d cur ctr).2
    refine ⟨by omega, ?_⟩
    intro m hm i hi
    rcases h1 : (trimI c d cur ctr).1 with _ | m0
    · rw [h1] at hm
      simp only at hm
      have := hcs.2 m hm i hi
      omega
    · rw [h1] at hm
      simp only [List.mem_cons] at hm
      rcases hm with hm | hm
      · subst hm
        have := hc.2 m h1 i hi
        omega
      · have := hcs.2 m hm i hi
        omega

end

/-- C5: `trim_depth` (run over identity-tagged nodes, with `Node` allocation
modelled by a fresh-id counter) returns a structure sharing no node instance
with its input: when the counter starts above every id of the input tree, no
id of the result occurs in the input (the trim never mutates the input), and
a second trim of the same tree continuing from the first trim's counter
shares no id with the first result (two trims are independent). -/
theorem trimI_disjoint (n : NodeI) (d : Int) (ctr : Nat) (m : NodeI) (ctr2 : Nat)
    (hfresh : ∀ i ∈ idsI n, i < ctr) (h : trimI n d 0 ctr = (some m, ctr2)) :
    (∀ i ∈ idsI m, i ∉ idsI n) ∧
    (∀ (d2 : Int) (m2 : NodeI) (ctr3 : Nat), trimI n d2 0 ctr2 = (some m2, ctr3) →
      ∀ i ∈ idsI m2, i ∉ idsI m) := by
  have hb := trimI_bound n d 0 ctr
  have h1 : (trimI n d 0 ctr).1 = some m := by rw [h]
  have h2 : (trimI n d 0 ctr).2 = ctr2 := by rw [h]
  constructor
  · intro i hi hin
    have := hb.2 m h1 i hi
    have := hfresh i hin
    omega
  · intro d2 m2 ctr3 hh i hi him
    have hb2 := trimI_bound n d2 0 ctr2
    have hh1 : (trimI n d2 0 ctr2).1 = some m2 := by rw [hh]
    have := hb2.2 m2 hh1 i hi
    have := hb.2 m h1 i him
    omega

/-- Witness for C5 at a concrete tree: the id 2 allocated by the trim occurs
in no node of the source tree (whose ids are 0 and 1). -/
theorem trimI_disjoint_witness :
    (2 : Nat) ∉ idsI (NodeI.mk 0 "a".data [NodeI.mk 1 "b".data []]) :=
  (trimI_disjoint (NodeI.mk 0 "a".data [NodeI.mk 1 "b".data []]) 2 2
      (NodeI.mk 2 "a".data [NodeI.mk 3 "b".data []]) 4
      (by decide) (by rfl)).1 2 (by decide)

/-- `replaceChar` distributes over concatenation. -/
theorem replaceChar_append (c : Char) (r : Str) (x y : Str) :
    replaceChar c r (x ++ y) = replaceChar c r x ++ replaceChar c r y := by
  induction x with
  | nil => rfl
  | cons a t ih => simp [replaceChar, ih]

/-- The three sequential `str.replace` calls of `esc` act on a single
character exactly as the spec's per-character escaping rule. -/
theorem esc_single (c : Char) : esc [c] = escCharSpec c := by
  by_cases h1 : c = '\\'
  · subst h1; rfl
  · by_cases h2 : c = '"'
    · subst h2; rfl
    · by_cases h3 : c = '\n'
      · subst h3; rfl
      · simp [esc, replaceChar, escCharSpec, h1, h2, h3]

/-- `esc` equals the spec's per-character escaping rule on every string:
each backslash is doubled, each double quote escaped, each newline replaced
by a single space, every other character kept. -/
theorem esc_eq_escSpec (s : Str) : esc s = escSpec s := by
  induction s with
  | nil => rfl
  | cons c t ih =>
    have : esc (c :: t) = esc [c] ++ esc t := by
      show esc ([c] ++ t) = esc [c] ++ esc t
      simp only [esc, replaceChar_append]
    rw [this, esc_single, ih, escSpec]

/-- The spec's escaping rule never emits a newline. -/
theorem escSpec_no_newline (s : Str) : '\n' ∉ escSpec s := by
  induction s with
  | nil => simp [escSpec]
  | cons c t ih =>
    rw [escSpec]
    intro h
    rcases List.mem_append.mp h with h | h
    · revert h
      by_cases h1 : c = '\\'
      · subst h1; decide
      · by_cases h2 : c = '"'
        · subst h2; decide
        · by_cases h3 : c = '\n'
          · subst h3; decide
          · simp [escCharSpec, h1, h2, h3]
            exact fun he => h3 he.symm
    · exact ih h

/-- C8: `to_dot` emits every title as a single-line escaped label. For any
title, the label line of the corresponding node carries `esc title`, where
`esc` doubles each backslash, escapes each double quote, and replaces each
newline by a single space (so a title containing both an embedded double
quote and a newline is rendered as a single-line label with the quote
escaped and the newline collapsed to a space), and the escaped label
contains no newline. -/
theorem to_dot_label_escaped (t : Str) :
    to_dot_lines (Node.mk t []) =
      dotHeader ++ ["  n1 [label=\"".data ++ esc t ++ "\"];".data, "\x7d".data] ∧
    esc t = escSpec t ∧ '\n' ∉ esc t := by
  refine ⟨rfl, esc_eq_escSpec t, ?_⟩
  rw [esc_eq_escSpec]
  exact escSpec_no_newline t

/-- Every classification produced by `is_heading` carries a level of at
least 1 (patterns 3 and 4 yield `count + 1 ≥ 1`, all other rules yield 1). -/
theorem is_heading_level_pos (s : Str) (l : Nat) (t : Str)
    (h : is_heading s = some (l, t)) : 1 ≤ l := by
  rw [is_heading.eq_def] at h
  dsimp only at h
  by_cases h0 : pyStrip s = []
  · rw [if_pos h0] at h
    exact Option.noConfusion h
  · rw [if_neg h0] at h
    cases h1 : matchP1 (pyStrip s) with
    | some g =>
      rw [h1] at h
      dsimp only at h
      simp only [Option.some.injEq, Prod.mk.injEq] at h
      omega
    | none =>
      rw [h1] at h
      dsimp only at h
      cases h2 : matchP2 (pyStrip s) with
      | some g =>
        rw [h2] at h
        dsimp only at h
        simp only [Option.some.injEq, Prod.mk.injEq] at h
        omega
      | none =>
        rw [h2] at h
        dsimp only at h
        cases h3 : matchP3 (pyStrip s) with
        | some nr =>
          obtain ⟨num, rest⟩ := nr
          rw [h3] at h
          dsimp only at h
          simp only [Option.some.injEq, Prod.mk.injEq] at h
          omega
        | none =>
          rw [h3] at h
          dsimp only at h
          cases h4 : matchP4 (pyStrip s) with
          | some nr =>
            obtain ⟨num, rest⟩ := nr
            rw [h4] at h
            dsimp only at h
            simp only [Option.some.injEq, Prod.mk.injEq] at h
            omega
          | none =>
            rw [h4] at h
            dsimp only at h
            split at h
            · simp only [Option.some.injEq, Prod.mk.injEq] at h
              omega
            · exact Option.noConfusion h

/-- The invariant of the builder stack: it is nonempty and its bottom frame
is the seed frame's level 0. -/
def bottomZero (st : List Frame) : Prop :=
  ∃ pre f, st = pre ++ [f] ∧ f.level = 0

/-- `dropWhile` on a list whose last element fails the predicate keeps that
last element. -/
theorem dropWhile_last_not (P : Frame → Bool) (f : Frame) (hf : P f = false) :
    ∀ pre : List Frame, ∃ pre2, (pre ++ [f]).dropWhile P = pre2 ++ [f] := by
  intro pre
  induction pre with
  | nil => exact ⟨[], by simp [List.dropWhile, hf]⟩
  | cons a t ih =>
    rcases ih with ⟨pre2, hp⟩
    by_cases ha : P a
    · exact ⟨pre2, by simp [List.dropWhile, ha, hp]⟩
    · exact ⟨a :: t, by simp [List.dropWhile, ha]⟩

/-- Closing the popped frames into the surviving frame `g` leaves a frame
with `g`'s level. -/
theorem foldl_close_level (g : Frame) : ∀ (xs : List Frame) (f0 : Frame),
    ((xs ++ [g]).foldl (fun acc nxt => closeFrame acc nxt) f0).level = g.level := by
  intro xs
  induction xs with
  | nil => intro f0; rfl
  | cons x t ih => intro f0; simpa using ih (closeFrame f0 x)

/-- With an incoming level ≥ 1, the pop loop never pops the level-0 bottom
frame: the resulting stack is nonempty and still bottomed at level 0. -/
theorem popTo_good (level : Nat) (hl : 1 ≤ level) (st : List Frame)
    (hb : bottomZero st) : popTo level st ≠ [] ∧ bottomZero (popTo level st) := by
  rcases hb with ⟨pre, f, hst, hf⟩
  subst hst
  have hPf : popPred level f = false := by
    simp [popPred, hf]; omega
  rcases dropWhile_last_not (popPred level) f hPf pre with ⟨pre2, hdrop⟩
  rw [popTo, hdrop]
  cases pre2 with
  | nil =>
    cases htake : (pre ++ [f]).takeWhile (popPred level) with
    | nil => exact ⟨by simp, [], f, rfl, hf⟩
    | cons p ps =>
      refine ⟨by simp, [], _, rfl, ?_⟩
      simpa [hf] using foldl_close_level f ps p
  | cons q qs =>
    cases htake : (pre ++ [f]).takeWhile (popPred level) with
    | nil => exact ⟨by simp, q :: qs, f, rfl, hf⟩
    | cons p ps =>
      exact ⟨by simp, _ :: qs, f, rfl, hf⟩

/-- Prepending a frame preserves the bottom invariant. -/
theorem bottomZero_cons (x : Frame) (st : List Frame) (hb : bottomZero st) :
    bottomZero (x :: st) := by
  rcases hb with ⟨pre, f, hst, hf⟩
  exact ⟨x :: pre, f, by simp [hst], hf⟩

/-- One builder step on a stack satisfying the invariant always succeeds and
preserves the invariant. -/
theorem stepLine_good (st : List Frame) (hb : bottomZero st) (raw : Str) :
    ∃ st2, stepLine st raw = some st2 ∧ bottomZero st2 := by
  rw [stepLine.eq_def]
  dsimp only
  by_cases he : pyStrip raw = []
  · exact ⟨st, by simp [he], hb⟩
  · rw [if_neg he]
    cases hh : is_heading (pyStrip raw) with
    | some lt =>
      obtain ⟨l, tt⟩ := lt
      dsimp only
      have hgood := popTo_good (max 1 l) (le_max_left 1 l) st hb
      cases hpop : popTo (max 1 l) st with
      | nil => exact absurd hpop hgood.1
      | cons f rest =>
        rw [hpop] at hgood
        exact ⟨_, rfl, bottomZero_cons _ _ hgood.2⟩
    | none =>
      dsimp only
      rcases hb with ⟨pre, f, hst, hf⟩
      cases pre with
      | nil =>
        subst hst
        exact ⟨_, rfl, [], _, rfl, hf⟩
      | cons p ps =>
        rw [hst]
        exact ⟨_, rfl, _ :: ps, f, rfl, hf⟩

/-- Running the builder loop from a stack satisfying the invariant always
succeeds and preserves the invariant. -/
theorem runLines_good : ∀ (lines : List Str) (st : List Frame), bottomZero st →
    ∃ st2, runLines st lines = some st2 ∧ bottomZero st2 := by
  intro lines
  induction lines with
  | nil => exact fun st hb => ⟨st, rfl, hb⟩
  | cons l ls ih =>
    intro st hb
    rcases stepLine_good st hb l with ⟨st2, hs, hb2⟩
    rcases ih st2 hb2 with ⟨st3, hr, hb3⟩
    refine ⟨st3, ?_, hb3⟩
    rw [runLines, hs]
    exact hr

/-- C10: the reconciliation stack of `build_tree_from_lines` is never
emptied. Every level classified by `is_heading` is at least 1 (and the
builder additionally clamps with `max 1 level`), so the pop loop never pops
the seed frame `(0, root)`; the stack-top read after the pop loop therefore
always succeeds, every heading node is appended as a child of some parent
frame, and the builder succeeds on every input line sequence. -/
theorem build_tree_stack_safe :
    (∀ (s : Str) (l : Nat) (t : Str), is_heading s = some (l, t) → 1 ≤ l) ∧
    ∀ lines : List Str, (build_tree_from_lines lines).isSome = true := by
  refine ⟨is_heading_level_pos, ?_⟩
  intro lines
  have hseed : bottomZero [Frame.mk 0 "ROOT".data []] := ⟨[], _, rfl, rfl⟩
  rcases runLines_good lines _ hseed with ⟨st2, hr, hb2⟩
  rw [build_tree_from_lines, hr]
  rcases hb2 with ⟨pre, f, hst, hf⟩
  subst hst
  cases pre with
  | nil => rfl
  | cons p ps => rfl

/-- Witness for C10: the theorem applied to a concrete classified heading
and a concrete line sequence. -/
theorem build_tree_stack_safe_witness :
    1 ≤ 1 ∧ (build_tree_from_lines ["1. A".data, "x".data]).isSome = true :=
  ⟨build_tree_stack_safe.1 "1. A".data 1 "1 A".data (by rfl),
   build_tree_stack_safe.2 ["1. A".data, "x".data]⟩

/-- A decimal digit (in the modelled `\d` ranges) is not whitespace. -/
theorem digit_not_space (c : Char) (h : isPyDigit c = true) : isPySpace c = false := by
  cases hb : isPySpace c
  · rfl
  · exfalso
    rw [isPyDigit] at h
    rw [isPySpace] at hb
    simp only [Bool.or_eq_true, Bool.and_eq_true, decide_eq_true_eq, beq_iff_eq] at h hb
    omega

/-- A nonempty `takeWhile` prefix exposes a first element satisfying the
predicate. -/
theorem takeWhile_ne_nil_head (p : Char → Bool) (s : Str) (h : s.takeWhile p ≠ []) :
    ∃ c s2, s = c :: s2 ∧ p c = true := by
  cases s with
  | nil => simp [List.takeWhile] at h
  | cons a s2 =>
    by_cases ha : p a
    · exact ⟨a, s2, rfl, ha⟩
    · rw [List.takeWhile_cons, if_neg (by simp [ha])] at h
      exact absurd rfl h

/-- The head of a nonempty `dropWhile` result fails the predicate. -/
theorem head?_dropWhile_not (p : Char → Bool) :
    ∀ (u : Str) (c : Char), (u.dropWhile p).head? = some c → p c = false := by
  intro u
  induction u with
  | nil => intro c h; simp [List.dropWhile] at h
  | cons a t ih =>
    intro c h
    rw [List.dropWhile_cons] at h
    by_cases ha : p a
    · rw [if_pos (by simp [ha])] at h
      exact ih c h
    · rw [if_neg (by simp [ha])] at h
      simp only [List.head?, Option.some.injEq] at h
      subst h
      simpa using ha

/-- `dropWhile` removes a prefix, so a nonempty result keeps the last
element. -/
theorem getLast?_dropWhile (p : Char → Bool) :
    ∀ u : Str, u.dropWhile p ≠ [] → (u.dropWhile p).getLast? = u.getLast? := by
  intro u
  induction u with
  | nil => intro h; simp [List.dropWhile] at h
  | cons a t ih =>
    intro h
    rw [List.dropWhile_cons]
    by_cases ha : p a
    · rw [List.dropWhile_cons, if_pos (by simp [ha])] at h
      rw [if_pos (by simp [ha]), ih h]
      cases t with
      | nil => rw [List.dropWhile] at h; exact absurd rfl h
      | cons b t2 => exact (List.getLast?_cons_cons).symm
    · rw [if_neg (by simp [ha])]

/-- The first character of a stripped string is not whitespace. -/
theorem pyStrip_head_not_space (w : Str) (c : Char) (h : (pyStrip w).head? = some c) :
    isPySpace c = false := by
  rw [pyStrip] at h
  rw [List.head?_reverse] at h
  have hne : ((w.dropWhile isPySpace).reverse.dropWhile isPySpace) ≠ [] := by
    intro he
    rw [he] at h
    exact Option.noConfusion h
  rw [getLast?_dropWhile isPySpace _ hne, List.getLast?_reverse] at h
  exact head?_dropWhile_not isPySpace w c h

/-- The last character of a stripped string is not whitespace. -/
theorem pyStrip_last_not_space (w : Str) (c : Char) (h : (pyStrip w).getLast? = some c) :
    isPySpace c = false := by
  rw [pyStrip] at h
  rw [List.getLast?_reverse] at h
  exact head?_dropWhile_not isPySpace _ c h

/-- Stripping a string whose two ends are not whitespace is the identity. -/
theorem pyStrip_noop (l : Str) (h1 : ∀ c, l.head? = some c → isPySpace c = false)
    (h2 : ∀ c, l.getLast? = some c → isPySpace c = false) : pyStrip l = l := by
  cases l with
  | nil => rfl
  | cons a t =>
    have ha : isPySpace a = false := h1 a rfl
    rw [pyStrip, List.dropWhile_cons, if_neg (by simp [ha])]
    cases hr : (a :: t).reverse with
    | nil => exact absurd hr (by simp)
    | cons z rs =>
      have hz : isPySpace z = false := by
        apply h2
        rw [← List.head?_reverse, hr]
        rfl
      rw [List.dropWhile_cons, if_neg (by simp [hz]), ← hr, List.reverse_reverse]

/-- `trySep` returns the numeral it was given. -/
theorem trySep_fst (numeral a num g : Str) (h : trySep numeral a = some (num, g)) :
    num = numeral := by
  cases a with
  | nil => exact absurd h (by simp [trySep])
  | cons c t =>
    rw [trySep] at h
    by_cases hc : sepOk c
    · rw [if_pos hc] at h
      cases ht : tailReq t with
      | some g2 =>
        rw [ht] at h
        simp only [Option.some.injEq, Prod.mk.injEq] at h
        exact h.1.symm
      | none =>
        rw [ht] at h
        exact Option.noConfusion h
    · rw [if_neg hc] at h
      exact Option.noConfusion h

/-- Every numeral produced by the repetition backtracking extends the
initial digit run. -/
theorem tryDownRev_num (d : Str) : ∀ (srev : List Str) (rem num rest : Str),
    tryDownRev d srev rem = some (num, rest) → ∃ x, num = d ++ x := by
  intro srev
  induction srev with
  | nil =>
    intro rem num rest h
    rw [tryDownRev] at h
    cases hts : trySep (d ++ ([] : List Str).reverse.flatten) rem with
    | some res =>
      rw [hts] at h
      obtain ⟨n2, g2⟩ := res
      simp only [Option.some.injEq, Prod.mk.injEq] at h
      exact ⟨_, h.1.symm.trans (trySep_fst _ _ _ _ hts)⟩
    | none =>
      rw [hts] at h
      exact Option.noConfusion h
  | cons x xs ih =>
    intro rem num rest h
    rw [tryDownRev] at h
    cases hts : trySep (d ++ ((x :: xs) : List Str).reverse.flatten) rem with
    | some res =>
      rw [hts] at h
      obtain ⟨n2, g2⟩ := res
      simp only [Option.some.injEq, Prod.mk.injEq] at h
      exact ⟨_, h.1.symm.trans (trySep_fst _ _ _ _ hts)⟩
    | none =>
      rw [hts] at h
      exact ih _ _ _ h

/-- A successful `matchP3` consumes a string starting with a digit. -/
theorem matchP3_starts_digit (s num rest : Str) (h : matchP3 s = some (num, rest)) :
    ∃ c s2, s = c :: s2 ∧ isPyDigit c = true := by
  rw [matchP3] at h
  by_cases hd : s.takeWhile isPyDigit = []
  · rw [if_pos hd] at h
    exact Option.noConfusion h
  · exact takeWhile_ne_nil_head isPyDigit s hd

/-- A successful `matchP3` returns a numeral extending the initial digit
run of its input. -/
theorem matchP3_num_ext (s num rest : Str) (h : matchP3 s = some (num, rest)) :
    ∃ x, num = s.takeWhile isPyDigit ++ x := by
  rw [matchP3] at h
  by_cases hd : s.takeWhile isPyDigit = []
  · rw [if_pos hd] at h
    exact Option.noConfusion h
  · rw [if_neg hd] at h
    exact tryDownRev_num _ _ _ _ _ h

/-- A digit-initial line can not match the chapter pattern. -/
theorem matchP1_digit_none (c : Char) (t : Str) (hc : isPyDigit c = true) :
    matchP1 (c :: t) = none := by
  rw [matchP1]
  rw [if_neg]
  intro he
  rw [he] at hc
  exact absurd hc (by decide)

/-- A prefix check against a list with a different head fails. -/
theorem isPrefixOf_cons_ne (a : Char) (as : Str) (c : Char) (t : Str) (h : ¬a = c) :
    List.isPrefixOf (a :: as) (c :: t) = false := by
  simp [List.isPrefixOf, h]

/-- A digit-initial line can not match the appendix pattern. -/
theorem matchP2_digit_none (c : Char) (t : Str) (hc : isPyDigit c = true) :
    matchP2 (c :: t) = none := by
  have hA : ¬('A' : Char) = c := by
    intro he
    rw [← he] at hc
    exact absurd hc (by decide)
  have hF : ¬('付' : Char) = c := by
    intro he
    rw [← he] at hc
    exact absurd hc (by decide)
  have h1 : List.isPrefixOf "Appendix".data (c :: t) = false :=
    isPrefixOf_cons_ne 'A' "ppendix".data c t hA
  have h2 : List.isPrefixOf "付録".data (c :: t) = false :=
    isPrefixOf_cons_ne '付' "録".data c t hF
  rw [matchP2]
  rw [if_neg (by simp [h1])]
  rw [if_neg (by simp [h2])]

/-- C6: every line whose stripped form is matched by the multi-segment
numeral family (`matchP3`: a numeral with up to 3 internal `.`/`-`
separators, a `.`, `．` or `)` separator, then a title) is classified by
`is_heading` with level equal to the count of `.` and `-` characters inside
the matched numeral plus 1, and with title `f"{numeral} {remainder.strip()}"
.strip()` — which, whenever the trimmed remainder is nonempty, is exactly
the numeral concatenated (with a space) with the trimmed remainder. -/
theorem is_heading_numeric_family (line num rest : Str)
    (h : matchP3 (pyStrip line) = some (num, rest)) :
    is_heading line = some (num.count '.' + num.count '-' + 1,
      pyStrip (num ++ ' ' :: pyStrip rest)) ∧
    (pyStrip rest ≠ [] →
      pyStrip (num ++ ' ' :: pyStrip rest) = num ++ ' ' :: pyStrip rest) := by
  obtain ⟨c, s2, hs, hc⟩ := matchP3_starts_digit _ _ _ h
  obtain ⟨x, hnum⟩ := matchP3_num_ext _ _ _ h
  have hnumc : num = c :: (s2.takeWhile isPyDigit ++ x) := by
    rw [hnum, hs, List.takeWhile_cons, if_pos (by simpa using hc)]
    rfl
  rw [hs] at h
  constructor
  · rw [is_heading.eq_def]
    dsimp only
    rw [hs]
    rw [if_neg (by simp)]
    rw [matchP1_digit_none c s2 hc]
    dsimp only
    rw [matchP2_digit_none c s2 hc]
    dsimp only
    rw [h]
  · intro hw
    apply pyStrip_noop
    · intro ch hh
      rw [hnumc] at hh
      simp only [List.cons_append, List.head?_cons, Option.some.injEq] at hh
      rw [← hh]
      exact digit_not_space c hc
    · intro ch hh
      apply pyStrip_last_not_space rest ch
      rw [List.getLast?_append] at hh
      cases hwc : pyStrip rest with
      | nil => exact absurd hwc hw
      | cons b bs =>
        rw [hwc, List.getLast?_cons_cons] at hh
        have hbl := List.getLast?_eq_getLast (b :: bs) (by simp)
        rw [hbl] at hh
        rw [hbl]
        exact hh

/-- Witness for C6 at a concrete heading line with two internal separators:
level 3 and the concatenated title. -/
theorem is_heading_numeric_family_witness :
    is_heading "1.2-3) T".data = some (3, pyStrip ("1.2-3".data ++ ' ' :: pyStrip "T".data)) :=
  (is_heading_numeric_family "1.2-3) T".data "1.2-3".data "T".data (by rfl)).1